import Mathlib

/-!
Shallow embedding of the alpaka workshop `computePi` examples
(`computePi_homework/src/computePi.cpp` and `computePi_lesson24/src/computePi.cpp`).

The four kernels differ only in which flat indices a worker processes, so we
embed each kernel as the list of flat indices it visits, in visit order, as a
function of the worker's grid-thread index `gridThreadIdx`, the grid-thread
extent (`gridThreadExtent`, the total worker count), the per-thread element
extent (`threadElementExtent`, called `elementsPerThread` in the work
division), and the number of points `n`.

The loop counters in the source are `uint32_t`: every increment
(`idx += gridThreadExtent`, `idx += gridThreadExtent * threadElementExtent`,
`i++`), the guard operand `idx + threadElementExtent` and the base
`gridThreadIdx * threadElementExtent` are computed modulo `2 ^ 32`.  The
faithful model of the kernels is therefore the mod-`2 ^ 32` one
(`stridedLoop32`, `blockedInner32`, `stridedBlockedLoop32` and the kernel
wrappers `PixelFinderKernelMultiplePointsPerThread32`,
`PixelFinderKernelMultiplePointsPerThreadElements32`), with a fuel parameter
counting outer iterations because the wrapped loops need not terminate
(e.g. a step `≡ 0 (mod 2 ^ 32)` from a base `< n` loops forever).  The
wrap-free `ℕ` loops (`stridedLoop`, `blockedInner`, `stridedBlockedLoop`)
are the intended ideal index assignment; the bridge lemmas
(`stridedLoop32_eq`, `stridedBlockedLoop32_eq`, …) prove that under the
no-wrap proviso `n + stride ≤ 2 ^ 32` the `uint32_t` kernels compute exactly
the ideal assignment, and the claims about the kernels are stated against
the mod-`2 ^ 32` model.
-/

/-- `2 ^ 32`, the modulus of the `uint32_t` arithmetic used by the kernels. -/
def W32 : ℕ := 4294967296

/-- The strided loop of `PixelFinderKernelMultiplePointsPerThread`
(computePi.cpp lines 92-94):
`for (uint32_t idx = gridThreadIdx; idx < n; idx += gridThreadExtent)`,
in the ideal wrap-free semantics (the increment computed in `ℕ`; the
faithful `uint32_t` loop is `stridedLoop32`, which coincides with this one
under the no-wrap proviso by `stridedLoop32_eq`).  `T` is
`gridThreadExtent`, `i` the current loop counter.  The `0 < T` conjunct in
the guard encodes termination: for `T = 0` the source loop would not
terminate, and the hierarchy-shape invariant guarantees `T ≥ 1`. -/
def stridedLoop (T n i : ℕ) : List ℕ :=
  if h : 0 < T ∧ i < n then i :: stridedLoop T n (i + T) else []
termination_by n - i
decreasing_by omega

/-- The inner (loop-blocking) loop of
`PixelFinderKernelMultiplePointsPerThreadElements` (computePi.cpp line 117):
`for (uint32_t i = idx; (i < idx + threadElementExtent) && (i < n); i++)`,
in the ideal wrap-free semantics (`idx + k` and `i + 1` computed in `ℕ`;
the faithful `uint32_t` loop is `blockedInner32`).  `k` is
`threadElementExtent`, `idx` the outer loop counter, `i` the inner loop
counter. -/
def blockedInner (k n idx i : ℕ) : List ℕ :=
  if h : i < idx + k ∧ i < n then i :: blockedInner k n idx (i + 1) else []
termination_by (idx + k) - i
decreasing_by omega

/-- The outer strided loop of
`PixelFinderKernelMultiplePointsPerThreadElements` (computePi.cpp
lines 113-119): `for (uint32_t idx = gridThreadIdx * threadElementExtent;
idx < n; idx += gridThreadExtent * threadElementExtent)` with the blocked
inner loop as its body, in the ideal wrap-free semantics (the faithful
`uint32_t` loop is `stridedBlockedLoop32`, which coincides with this one
under the no-wrap proviso by `stridedBlockedLoop32_eq`).  As in
`stridedLoop`, the `0 < T ∧ 0 < k` guard conjuncts encode termination of
the source loop under the hierarchy-shape invariant. -/
def stridedBlockedLoop (T k n idx : ℕ) : List ℕ :=
  if h : 0 < T ∧ 0 < k ∧ idx < n then
    blockedInner k n idx idx ++ stridedBlockedLoop T k n (idx + T * k)
  else []
termination_by n - idx
decreasing_by have := Nat.mul_pos h.1 h.2.1; omega

/-- `PixelFinderKernelOnePointPerThreadSimplified` (computePi.cpp
lines 50-61), the Exact policy: each worker processes exactly its own
grid-thread index, unconditionally. -/
def PixelFinderKernelOnePointPerThreadSimplified (gridThreadIdx : ℕ) : List ℕ :=
  [gridThreadIdx]

/-- `PixelFinderKernelOnePointPerThread` (computePi.cpp lines 66-78), the
Bounded policy: each worker processes its own grid-thread index, but only if
that index is `< n`. -/
def PixelFinderKernelOnePointPerThread (gridThreadIdx n : ℕ) : List ℕ :=
  if gridThreadIdx < n then [gridThreadIdx] else []

/-- `PixelFinderKernelMultiplePointsPerThread` (computePi.cpp lines 83-96),
the Strided policy, in the ideal wrap-free semantics: the strided loop
starting at the worker's grid-thread index with stride `gridThreadExtent`.
The faithful `uint32_t` kernel is
`PixelFinderKernelMultiplePointsPerThread32`. -/
def PixelFinderKernelMultiplePointsPerThread (gridThreadIdx gridThreadExtent n : ℕ) : List ℕ :=
  stridedLoop gridThreadExtent n gridThreadIdx

/-- `PixelFinderKernelMultiplePointsPerThreadElements` (computePi.cpp
lines 102-121), the StridedBlocked policy, in the ideal wrap-free
semantics: the strided-blocked loop starting at
`gridThreadIdx * threadElementExtent`, the base multiplication computed in
`ℕ` (the source multiplies in `uint32_t`; the faithful kernel is
`PixelFinderKernelMultiplePointsPerThreadElements32`). -/
def PixelFinderKernelMultiplePointsPerThreadElements
    (gridThreadIdx gridThreadExtent threadElementExtent n : ℕ) : List ℕ :=
  stridedBlockedLoop gridThreadExtent threadElementExtent n (gridThreadIdx * threadElementExtent)

/-- Concatenation of the index lists of workers `0, 1, …, W - 1`: the
multiset of flat indices visited across the whole grid when each worker `i`
visits `f i`. -/
def allWorkers (f : ℕ → List ℕ) : ℕ → List ℕ
  | 0 => []
  | W + 1 => allWorkers f W ++ f W

/- ## Counting lemmas for the strided loop -/

/-- How often the strided loop starting at `i` visits index `m`: exactly once
if `m` is in range, at least `i`, and congruent to `i` modulo the stride. -/
theorem stridedLoop_count (T n : ℕ) (hT : 0 < T) :
    ∀ i m, (stridedLoop T n i).count m
      = if i ≤ m ∧ m < n ∧ (m - i) % T = 0 then 1 else 0 := by
  intro i
  induction i using stridedLoop.induct T n with
  | case1 i h ih =>
    intro m
    rw [stridedLoop, dif_pos h]
    rcases h with ⟨-, hin⟩
    rw [List.count_cons, ih m]
    simp only [beq_iff_eq]
    by_cases hmi : i = m
    · subst hmi
      rw [if_pos rfl, if_neg (show ¬ (i + T ≤ i ∧ i < n ∧ (i - (i + T)) % T = 0) by omega),
        if_pos (show i ≤ i ∧ i < n ∧ (i - i) % T = 0 from ⟨Nat.le_refl i, hin, by
          rw [Nat.sub_self, Nat.zero_mod]⟩)]
    · rw [if_neg hmi, Nat.add_zero]
      by_cases hle : i + T ≤ m
      · have h1 : (m - i) % T = (m - (i + T)) % T := by
          have heq : m - i = (m - (i + T)) + T := by omega
          rw [heq, Nat.add_mod_right]
        refine if_congr ?_ rfl rfl
        constructor
        · rintro ⟨-, hb, hc⟩; exact ⟨by omega, hb, h1.trans hc⟩
        · rintro ⟨-, hb, hc⟩; exact ⟨hle, hb, h1.symm.trans hc⟩
      · -- `m` lies strictly between `i` and `i + T`, or below `i`:
        -- neither the head nor the tail of the loop visits it
        rw [if_neg (show ¬ (i + T ≤ m ∧ m < n ∧ (m - (i + T)) % T = 0) from
          fun hc => hle hc.1)]
        rw [if_neg ?_]
        rintro ⟨him, -, hmod⟩
        have hlt : m - i < T := by omega
        have hz : m - i = 0 := by
          rcases Nat.eq_zero_or_pos (m - i) with h0 | hpos
          · exact h0
          · exact absurd (Nat.le_of_dvd hpos (Nat.dvd_of_mod_eq_zero hmod)) (by omega)
        omega
  | case2 i h =>
    intro m
    rw [stridedLoop, dif_neg h]
    have hni : ¬ (i ≤ m ∧ m < n ∧ (m - i) % T = 0) := by
      rintro ⟨him, hmn, -⟩
      exact h ⟨hT, by omega⟩
    rw [List.count_nil, if_neg hni]

/-- Which stride residue a worker owns: for a worker index `W < T`, the
strided loop starting at `W` covers exactly the indices `≡ W (mod T)`. -/
theorem strided_worker_iff (T W m : ℕ) (hWT : W < T) :
    (W ≤ m ∧ (m - W) % T = 0) ↔ m % T = W := by
  constructor
  · rintro ⟨hWm, hmod⟩
    obtain ⟨j, hj⟩ := Nat.dvd_of_mod_eq_zero hmod
    have hm : m = W + T * j := by omega
    rw [hm, Nat.add_mul_mod_self_left, Nat.mod_eq_of_lt hWT]
  · intro h
    have h1 := Nat.mod_le m T
    have h2 := Nat.div_add_mod m T
    refine ⟨by omega, ?_⟩
    have h3 : m - W = T * (m / T) := by omega
    rw [h3, Nat.mul_mod_right]

/-- Counting across workers `0, …, W - 1` of the Strided policy: index `m`
is visited exactly once as soon as its residue class `m % T` is among the
first `W` workers. -/
theorem allWorkers_strided_count (T n : ℕ) (hT : 0 < T) :
    ∀ W, W ≤ T → ∀ m, (allWorkers (fun i => stridedLoop T n i) W).count m
      = if m < n ∧ m % T < W then 1 else 0 := by
  intro W
  induction W with
  | zero => intro _ m; rw [allWorkers, List.count_nil]; split_ifs <;> omega
  | succ W ih =>
    intro hWT m
    have hiff : (W ≤ m ∧ m < n ∧ (m - W) % T = 0) ↔ (m < n ∧ m % T = W) := by
      rw [show (W ≤ m ∧ m < n ∧ (m - W) % T = 0) ↔ (m < n ∧ (W ≤ m ∧ (m - W) % T = 0)) by
        constructor
        · rintro ⟨a, b, c⟩; exact ⟨b, a, c⟩
        · rintro ⟨b, a, c⟩; exact ⟨a, b, c⟩]
      rw [strided_worker_iff T W m (by omega)]
    rw [allWorkers, List.count_append, ih (by omega) m, stridedLoop_count T n hT W m,
      if_congr hiff rfl rfl]
    split_ifs <;> omega

/-- The inner blocked loop visits each index of `[i, min (idx + k) n)`
exactly once. -/
theorem blockedInner_count (k n idx : ℕ) :
    ∀ i m, (blockedInner k n idx i).count m
      = if i ≤ m ∧ m < idx + k ∧ m < n then 1 else 0 := by
  intro i
  induction i using blockedInner.induct k n idx with
  | case1 i h ih =>
    intro m
    rw [blockedInner, dif_pos h, List.count_cons, ih m]
    simp only [beq_iff_eq]
    split_ifs <;> omega
  | case2 i h =>
    intro m
    rw [blockedInner, dif_neg h, List.count_nil]
    split_ifs <;> omega

/-- How often the strided-blocked loop starting at `b` visits index `m`:
exactly once if `m` is in range, at least `b`, and lands in the first `k`
slots of its stride-`T * k` period. -/
theorem stridedBlockedLoop_count (T k n : ℕ) (hT : 0 < T) (hk : 0 < k) :
    ∀ b m, (stridedBlockedLoop T k n b).count m
      = if b ≤ m ∧ m < n ∧ (m - b) % (T * k) < k then 1 else 0 := by
  have hkS : k ≤ T * k := Nat.le_mul_of_pos_left k hT
  intro b
  induction b using stridedBlockedLoop.induct T k n with
  | case1 b h ih =>
    intro m
    rw [stridedBlockedLoop, dif_pos h, List.count_append, blockedInner_count k n b b m, ih m]
    by_cases hge : b + T * k ≤ m
    · have h1 : (m - b) % (T * k) = (m - (b + T * k)) % (T * k) := by
        have heq : m - b = (m - (b + T * k)) + T * k := by omega
        rw [heq, Nat.add_mod_right]
      split_ifs <;> omega
    · have h1 : (m - b) % (T * k) = m - b := Nat.mod_eq_of_lt (by omega)
      split_ifs <;> omega
  | case2 b h =>
    intro m
    rw [stridedBlockedLoop, dif_neg h, List.count_nil]
    have hb : ¬ b < n := fun hbn => h ⟨hT, hk, hbn⟩
    split_ifs <;> omega

/-- Which block-cyclic slice a worker owns: for a worker index `i < T`, the
strided-blocked loop starting at `i * k` covers exactly the indices whose
block number `m / k` is `≡ i (mod T)`. -/
theorem stridedBlocked_worker_iff (T k i m : ℕ) (hT : 0 < T) (hk : 0 < k) (hi : i < T) :
    (i * k ≤ m ∧ (m - i * k) % (T * k) < k) ↔ (m / k) % T = i := by
  constructor
  · rintro ⟨hle, hmod⟩
    have hdm := Nat.div_add_mod (m - i * k) (T * k)
    have hrk : (m - i * k) % (T * k) < k := hmod
    have hexp : k * (i + T * ((m - i * k) / (T * k)))
        = i * k + T * k * ((m - i * k) / (T * k)) := by ring
    have hm : m = k * (i + T * ((m - i * k) / (T * k))) + (m - i * k) % (T * k) := by omega
    rw [hm, Nat.mul_add_div hk, Nat.div_eq_of_lt hrk, Nat.add_zero,
      Nat.add_mul_mod_self_left, Nat.mod_eq_of_lt hi]
  · intro h
    have hq := Nat.div_add_mod m k
    have hrk : m % k < k := Nat.mod_lt m hk
    have hkS : k ≤ T * k := Nat.le_mul_of_pos_left k hT
    obtain ⟨a, ha⟩ : ∃ a, m / k / T = a := ⟨_, rfl⟩
    have hqt := Nat.div_add_mod (m / k) T
    rw [ha, h] at hqt
    have h2 : k * (m / k) = T * k * a + i * k := by
      rw [show m / k = T * a + i by omega]; ring
    have hle : i * k ≤ m := by omega
    refine ⟨hle, ?_⟩
    have h3 : m - i * k = T * k * a + m % k := by omega
    rw [h3, Nat.mul_add_mod, Nat.mod_eq_of_lt (by omega)]
    exact hrk

/-- Counting across workers `0, …, W - 1` of the StridedBlocked policy:
index `m` is visited exactly once as soon as the residue class of its block
number, `(m / k) % T`, is among the first `W` workers. -/
theorem allWorkers_stridedBlocked_count (T k n : ℕ) (hT : 0 < T) (hk : 0 < k) :
    ∀ W, W ≤ T → ∀ m, (allWorkers (fun i => stridedBlockedLoop T k n (i * k)) W).count m
      = if m < n ∧ (m / k) % T < W then 1 else 0 := by
  intro W
  induction W with
  | zero => intro _ m; rw [allWorkers, List.count_nil]; split_ifs <;> omega
  | succ W ih =>
    intro hWT m
    have hiff : (W * k ≤ m ∧ m < n ∧ (m - W * k) % (T * k) < k) ↔ (m < n ∧ (m / k) % T = W) := by
      rw [show (W * k ≤ m ∧ m < n ∧ (m - W * k) % (T * k) < k)
          ↔ (m < n ∧ (W * k ≤ m ∧ (m - W * k) % (T * k) < k)) by
        constructor
        · rintro ⟨a, b, c⟩; exact ⟨b, a, c⟩
        · rintro ⟨b, a, c⟩; exact ⟨a, b, c⟩]
      rw [stridedBlocked_worker_iff T k W m hT hk (by omega)]
    rw [allWorkers, List.count_append, ih (by omega) m,
      stridedBlockedLoop_count T k n hT hk (W * k) m, if_congr hiff rfl rfl]
    split_ifs <;> omega

/-- Partition of the ideal wrap-free index assignment: for every problem
size `n`, `T ≥ 1` workers and `k ≥ 1`, the ideal Strided and StridedBlocked
assignments each visit every flat index `m < n` exactly once across all
workers and never an index `≥ n`.  (The claim about the `uint32_t` kernels
is `uint32_workDistribution_partition`, which transfers this via the
no-wrap bridge.) -/
theorem workDistribution_partition (n T k m : ℕ) (hT : 0 < T) (hk : 0 < k) :
    (allWorkers (fun i => PixelFinderKernelMultiplePointsPerThread i T n) T).count m
      = (if m < n then 1 else 0)
    ∧ (allWorkers (fun i => PixelFinderKernelMultiplePointsPerThreadElements i T k n) T).count m
      = (if m < n then 1 else 0) := by
  constructor
  · rw [show (fun i => PixelFinderKernelMultiplePointsPerThread i T n)
        = (fun i => stridedLoop T n i) from rfl,
      allWorkers_strided_count T n hT T (Nat.le_refl T) m]
    have := Nat.mod_lt m hT
    split_ifs <;> omega
  · rw [show (fun i => PixelFinderKernelMultiplePointsPerThreadElements i T k n)
        = (fun i => stridedBlockedLoop T k n (i * k)) from rfl,
      allWorkers_stridedBlocked_count T k n hT hk T (Nat.le_refl T) m]
    have := Nat.mod_lt (m / k) hT
    split_ifs <;> omega


/- ## Closed form of the strided loop -/

/-- One step of a ceiling division: for `0 < a`,
`(a + (T-1)) / T = ((a - T) + (T-1)) / T + 1`. -/
theorem ceil_div_step (T a : ℕ) (hT : 0 < T) (ha : 0 < a) :
    (a + (T - 1)) / T = (a - T + (T - 1)) / T + 1 := by
  rcases le_or_lt T a with hTa | hTa
  · rw [show a + (T - 1) = (a - T + (T - 1)) + T by omega, Nat.add_div_right _ hT]
  · rw [show a - T = 0 by omega, Nat.zero_add,
      Nat.div_eq_of_lt (show T - 1 < T by omega),
      show a + (T - 1) = (a - 1) + T by omega, Nat.add_div_right _ hT,
      Nat.div_eq_of_lt (show a - 1 < T by omega)]

/-- Closed form of the strided loop: starting at `i` with stride `T` it
visits `i, i + T, i + 2T, …` for exactly `⌈(n - i) / T⌉` steps. -/
theorem stridedLoop_eq_map (T n : ℕ) (hT : 0 < T) :
    ∀ i, stridedLoop T n i
      = (List.range ((n - i + (T - 1)) / T)).map (fun j => i + j * T) := by
  intro i
  induction i using stridedLoop.induct T n with
  | case1 i h ih =>
    rcases h with ⟨-, hin⟩
    rw [stridedLoop, dif_pos ⟨hT, hin⟩, ih]
    have hstep : (n - i + (T - 1)) / T = (n - (i + T) + (T - 1)) / T + 1 := by
      have hc := ceil_div_step T (n - i) hT (by omega)
      rwa [show n - i - T = n - (i + T) by omega] at hc
    rw [hstep, List.range_succ_eq_map, List.map_cons, List.map_map]
    congr 1
    · simp
    · refine List.map_congr_left fun a ha => ?_
      simp only [Function.comp, Nat.succ_eq_add_one]
      ring
  | case2 i h =>
    have hin : ¬ i < n := fun hc => h ⟨hT, hc⟩
    rw [stridedLoop, dif_neg h, show n - i = 0 by omega, Nat.zero_add,
      Nat.div_eq_of_lt (show T - 1 < T by omega), List.range_zero, List.map_nil]

/-- Per-worker sequence of the ideal wrap-free Strided assignment: worker
`i` gets exactly `i, i + T, i + 2T, …` in strictly increasing order for
exactly `⌈(n - i) / T⌉` steps.  (The claim about the `uint32_t` kernel is
`uint32_strided_per_worker_sequence`.) -/
theorem strided_per_worker_sequence (i T n : ℕ) (hT : 0 < T) :
    PixelFinderKernelMultiplePointsPerThread i T n
      = (List.range ((n - i + (T - 1)) / T)).map (fun j => i + j * T)
    ∧ (PixelFinderKernelMultiplePointsPerThread i T n).Pairwise (· < ·)
    ∧ (∀ j : ℕ, j < (n - i + (T - 1)) / T ↔ i + j * T < n) := by
  have hmap := stridedLoop_eq_map T n hT i
  refine ⟨hmap, ?_, ?_⟩
  · rw [show PixelFinderKernelMultiplePointsPerThread i T n = stridedLoop T n i from rfl, hmap]
    exact (List.pairwise_lt_range _).map _
      (fun a b hab => Nat.add_lt_add_left (mul_lt_mul_of_pos_right hab hT) i)
  · intro j
    have h1 : j < (n - i + (T - 1)) / T ↔ (j + 1) * T ≤ n - i + (T - 1) := by
      rw [Nat.lt_iff_add_one_le, Nat.le_div_iff_mul_le hT]
    have h2 : (j + 1) * T = j * T + T := by ring
    rw [h1]
    omega


/- ## Range safety of the kernels -/

/-- Every index visited by the strided loop is `< n`. -/
theorem stridedLoop_mem_lt (T n : ℕ) : ∀ i, ∀ m ∈ stridedLoop T n i, m < n := by
  intro i
  induction i using stridedLoop.induct T n with
  | case1 i h ih =>
    intro m hm
    rw [stridedLoop, dif_pos h] at hm
    rcases List.mem_cons.mp hm with rfl | hm
    · exact h.2
    · exact ih m hm
  | case2 i h =>
    intro m hm
    rw [stridedLoop, dif_neg h] at hm
    exact absurd hm (List.not_mem_nil m)

/-- Every index visited by the inner blocked loop is `< n`. -/
theorem blockedInner_mem_lt (k n idx : ℕ) : ∀ i, ∀ m ∈ blockedInner k n idx i, m < n := by
  intro i
  induction i using blockedInner.induct k n idx with
  | case1 i h ih =>
    intro m hm
    rw [blockedInner, dif_pos h] at hm
    rcases List.mem_cons.mp hm with rfl | hm
    · exact h.2
    · exact ih m hm
  | case2 i h =>
    intro m hm
    rw [blockedInner, dif_neg h] at hm
    exact absurd hm (List.not_mem_nil m)

/-- Every index visited by the strided-blocked loop is `< n`. -/
theorem stridedBlockedLoop_mem_lt (T k n : ℕ) :
    ∀ b, ∀ m ∈ stridedBlockedLoop T k n b, m < n := by
  intro b
  induction b using stridedBlockedLoop.induct T k n with
  | case1 b h ih =>
    intro m hm
    rw [stridedBlockedLoop, dif_pos h] at hm
    rcases List.mem_append.mp hm with hm | hm
    · exact blockedInner_mem_lt k n b b m hm
    · exact ih m hm
  | case2 b h =>
    intro m hm
    rw [stridedBlockedLoop, dif_neg h] at hm
    exact absurd hm (List.not_mem_nil m)

/-- Range safety of the ideal wrap-free assignments: Bounded, Strided and
StridedBlocked never produce an index `≥ n`, and Exact stays in range under
its documented precondition `T = n`.  (The claim about the `uint32_t`
kernels is `uint32_no_out_of_range_classifier_call`.) -/
theorem no_out_of_range_classifier_call (n T k i : ℕ) :
    (∀ m ∈ PixelFinderKernelOnePointPerThread i n, m < n)
    ∧ (∀ m ∈ PixelFinderKernelMultiplePointsPerThread i T n, m < n)
    ∧ (∀ m ∈ PixelFinderKernelMultiplePointsPerThreadElements i T k n, m < n)
    ∧ (n = T → i < T → ∀ m ∈ PixelFinderKernelOnePointPerThreadSimplified i, m < n) := by
  refine ⟨?_, ?_, ?_, ?_⟩
  · intro m hm
    rw [PixelFinderKernelOnePointPerThread] at hm
    split_ifs at hm with hi
    · rw [List.mem_singleton.mp hm]; exact hi
    · exact absurd hm (List.not_mem_nil m)
  · exact stridedLoop_mem_lt T n i
  · exact stridedBlockedLoop_mem_lt T k n (i * k)
  · intro hn hi m hm
    rw [PixelFinderKernelOnePointPerThreadSimplified, List.mem_singleton.mp hm] at *
    omega

/- ## Equal worker count: Exact, Bounded and Strided coincide -/

/-- A strided loop whose first step already leaves the range visits exactly
its start index. -/
theorem stridedLoop_single (T n i : ℕ) (hin : i < n) (hstep : n ≤ i + T) :
    stridedLoop T n i = [i] := by
  rw [stridedLoop, dif_pos ⟨by omega, hin⟩, stridedLoop,
    dif_neg (show ¬ (0 < T ∧ i + T < n) by omega)]

/-- If every worker `j < W` visits exactly `[j]`, the whole grid visits
`0, 1, …, W - 1` in order. -/
theorem allWorkers_eq_range (f : ℕ → List ℕ) :
    ∀ W, (∀ j, j < W → f j = [j]) → allWorkers f W = List.range W := by
  intro W
  induction W with
  | zero => intro _; rw [allWorkers, List.range_zero]
  | succ W ih =>
    intro hf
    rw [allWorkers, ih (fun j hj => hf j (by omega)), hf W (by omega)]
    rw [List.range_succ]

/-- Equal worker count in the ideal wrap-free model: when `n = T`, the
Exact, Bounded and ideal Strided assignments each give worker `i` exactly
`[i]` and across the grid cover `[0, n)` exactly once.  (The claim about
the `uint32_t` kernel is `uint32_equal_worker_count_equivalence`.) -/
theorem equal_worker_count_equivalence (n T i : ℕ) (hn : n = T) (hi : i < T) :
    PixelFinderKernelOnePointPerThreadSimplified i = [i]
    ∧ PixelFinderKernelOnePointPerThread i n = [i]
    ∧ PixelFinderKernelMultiplePointsPerThread i T n = [i]
    ∧ allWorkers (fun j => PixelFinderKernelOnePointPerThreadSimplified j) T = List.range n
    ∧ allWorkers (fun j => PixelFinderKernelOnePointPerThread j n) T = List.range n
    ∧ allWorkers (fun j => PixelFinderKernelMultiplePointsPerThread j T n) T = List.range n := by
  subst hn
  refine ⟨rfl, ?_, ?_, ?_, ?_, ?_⟩
  · rw [PixelFinderKernelOnePointPerThread, if_pos hi]
  · exact stridedLoop_single n n i hi (by omega)
  · exact allWorkers_eq_range _ n (fun j hj => rfl)
  · exact allWorkers_eq_range _ n (fun j hj => by
      rw [PixelFinderKernelOnePointPerThread, if_pos hj])
  · exact allWorkers_eq_range _ n (fun j hj => stridedLoop_single n n j hj (by omega))


/- ## Contiguous runs of the strided-blocked loop -/

/-- The inner blocked loop starting at `i` visits the contiguous run
`i, i + 1, …, min (idx + k) n - 1`. -/
theorem blockedInner_eq_range (k n idx : ℕ) :
    ∀ i, blockedInner k n idx i = List.range' i (min (idx + k) n - i) := by
  intro i
  induction i using blockedInner.induct k n idx with
  | case1 i h ih =>
    have hmin : i < min (idx + k) n := lt_min h.1 h.2
    rw [blockedInner, dif_pos h, ih,
      show min (idx + k) n - i = (min (idx + k) n - (i + 1)) + 1 by omega,
      List.range'_succ]
  | case2 i h =>
    rw [blockedInner, dif_neg h, show min (idx + k) n - i = 0 by omega, List.range'_zero]

/-- Closed form of the strided-blocked loop: starting at `b` it visits, for
each of its `⌈(n - b) / (T * k)⌉` outer positions `b + j * (T * k)`, the
contiguous run of at most `k` indices starting there and truncated at `n`. -/
theorem stridedBlockedLoop_eq_runs (T k n : ℕ) (hT : 0 < T) (hk : 0 < k) :
    ∀ b, stridedBlockedLoop T k n b
      = ((List.range ((n - b + (T * k - 1)) / (T * k))).map
          (fun j => b + j * (T * k))).flatMap
          (fun p => List.range' p (min (p + k) n - p)) := by
  have hS : 0 < T * k := Nat.mul_pos hT hk
  intro b
  induction b using stridedBlockedLoop.induct T k n with
  | case1 b h ih =>
    rcases h with ⟨-, -, hbn⟩
    rw [stridedBlockedLoop, dif_pos ⟨hT, hk, hbn⟩, blockedInner_eq_range k n b b, ih]
    have hstep : (n - b + (T * k - 1)) / (T * k)
        = (n - (b + T * k) + (T * k - 1)) / (T * k) + 1 := by
      have hc := ceil_div_step (T * k) (n - b) hS (by omega)
      rwa [show n - b - T * k = n - (b + T * k) by omega] at hc
    rw [hstep, List.range_succ_eq_map, List.map_cons, List.map_map, List.flatMap_cons]
    congr 1
    · simp
    · rw [show (List.range ((n - (b + T * k) + (T * k - 1)) / (T * k))).map
          ((fun j => b + j * (T * k)) ∘ Nat.succ)
          = (List.range ((n - (b + T * k) + (T * k - 1)) / (T * k))).map
            (fun j => (b + T * k) + j * (T * k)) from
        List.map_congr_left fun a ha => by
          simp only [Function.comp, Nat.succ_eq_add_one]; ring]
  | case2 b h =>
    have hbn : ¬ b < n := fun hc => h ⟨hT, hk, hc⟩
    rw [stridedBlockedLoop, dif_neg h, show n - b = 0 by omega, Nat.zero_add,
      Nat.div_eq_of_lt (show T * k - 1 < T * k by omega), List.range_zero,
      List.map_nil, List.flatMap_nil]

/-- With one element per thread (`k = 1`) the strided-blocked loop is the
plain strided loop. -/
theorem stridedBlockedLoop_one (T n : ℕ) :
    ∀ b, stridedBlockedLoop T 1 n b = stridedLoop T n b := by
  intro b
  induction b using stridedBlockedLoop.induct T 1 n with
  | case1 b h ih =>
    rcases h with ⟨hT, -, hbn⟩
    rw [stridedBlockedLoop, dif_pos ⟨hT, Nat.one_pos, hbn⟩,
      blockedInner, dif_pos ⟨by omega, hbn⟩,
      blockedInner, dif_neg (show ¬ (b + 1 < b + 1 ∧ b + 1 < n) by omega),
      stridedLoop, dif_pos ⟨hT, hbn⟩]
    rw [show b + T * 1 = b + T by rw [Nat.mul_one]] at ih
    rw [show b + T * 1 = b + T by rw [Nat.mul_one], ih]
    rfl
  | case2 b h =>
    rw [stridedBlockedLoop, dif_neg h, stridedLoop,
      dif_neg (fun hc : 0 < T ∧ b < n => h ⟨hc.1, Nat.one_pos, hc.2⟩)]

/-- Runs decomposition of the ideal wrap-free StridedBlocked assignment:
contiguous runs of length `k` at the outer positions, truncated at `n`, and
identity with the ideal Strided assignment for `k = 1`.  (The claim about
the `uint32_t` kernel is `uint32_stridedBlocked_runs_and_k1`.) -/
theorem stridedBlocked_runs_and_k1 (i T k n : ℕ) (hT : 0 < T) (hk : 0 < k) :
    PixelFinderKernelMultiplePointsPerThreadElements i T k n
      = ((List.range ((n - i * k + (T * k - 1)) / (T * k))).map
          (fun j => i * k + j * (T * k))).flatMap
          (fun p => List.range' p (min (p + k) n - p))
    ∧ PixelFinderKernelMultiplePointsPerThreadElements i T 1 n
      = PixelFinderKernelMultiplePointsPerThread i T n := by
  constructor
  · exact stridedBlockedLoop_eq_runs T k n hT hk (i * k)
  · rw [PixelFinderKernelMultiplePointsPerThreadElements, Nat.mul_one]
    exact stridedBlockedLoop_one T n i


/- ## Host side: point buffers, classifier, aggregation, estimate -/

/-- The `Points` structure (computePi.cpp lines 27-31): raw pointers to the
`x`, `y` and `inside` buffers, modelled as maps from the flat index. -/
structure Points where
  x : ℕ → ℚ
  y : ℕ → ℚ
  inside : ℕ → Bool

/-- The classification computed by `processPoint` (computePi.cpp
lines 39-42), `sqrt(x*x + y*y) <= r`, idealized over `ℚ`: over an ordered
field the condition is equivalent to `x*x + y*y ≤ r*r ∧ 0 ≤ r`.  The
IEEE-754 float rounding of the source is not modelled (claim C6); for the
frame claim (C10) the boolean's value is irrelevant. -/
def pointInside (x y r : ℚ) : Bool := decide (x * x + y * y ≤ r * r ∧ 0 ≤ r)

/-- `processPoint` (computePi.cpp lines 36-44): reads `points.x[idx]` and
`points.y[idx]`, and writes the classification to `points.inside[idx]`,
modelled as a state transformer on `Points`. -/
def processPoint (r : ℚ) (points : Points) (idx : ℕ) : Points :=
  { points with
    inside := fun j =>
      if j = idx then pointInside (points.x idx) (points.y idx) r else points.inside j }

/-- A kernel launch: every index of the list `idxs` assigned to a worker is
processed by `processPoint`, in order. -/
def runKernelOn (r : ℚ) (points : Points) (idxs : List ℕ) : Points :=
  idxs.foldl (fun s idx => processPoint r s idx) points

/-- The classifier's mathematical semantics over `ℝ` (computePi.cpp
lines 41-42 and lesson 24 lines 57-60): `sqrt(x*x + y*y) ≤ r`. -/
def insideR (x y r : ℝ) : Prop := Real.sqrt (x * x + y * y) ≤ r

/-- The number of points `n` configured in `main` (computePi.cpp line 154:
`uint32_t n = 10000`). -/
def nPoints : ℕ := 10000

/-- The host-side reduction of `main` (computePi.cpp lines 237-242): a
sequential fold over the `inside` buffer counting the `true` entries. -/
def countInside (inside : List Bool) : ℕ :=
  inside.foldl (fun P b => if b then P + 1 else P) 0

/-- The estimate of `main` (computePi.cpp line 243): `float pi = 4.f * P / n`,
idealized over `ℚ` (exact for the values of the end-to-end scenario). -/
def piEstimate (P n : ℕ) : ℚ := 4 * P / n

/-- The aggregation fold, started from any accumulator. -/
theorem countInside_fold (l : List Bool) :
    ∀ a : ℕ, l.foldl (fun P b => if b then P + 1 else P) a = a + l.count true := by
  induction l with
  | nil => intro a; rw [List.foldl_nil, List.count_nil, Nat.add_zero]
  | cons b l ih =>
    intro a
    cases b <;> rw [List.foldl_cons] <;> rw [ih] <;>
      simp [List.count_cons] <;> omega

/-- Claim C7: the host-side aggregation returns the number of `true` entries
of the membership-flag array (a sequential fold), and the reported estimate
is `4 × count / n`; in the end-to-end scenario with `n = 4`, radius `r = 1`
and the points `(0,0)`, `(1,0)`, `(2,0)`, `(0.5, 0.5)`, the classifier
marks the first, second (boundary) and fourth point inside and the third
outside, the count is `3` and the estimate is `3.0`. -/
theorem aggregator_count_and_scenario :
    (∀ flags : List Bool, countInside flags = flags.count true)
    ∧ (insideR 0 0 1 ∧ insideR 1 0 1 ∧ ¬ insideR 2 0 1 ∧ insideR (1/2) (1/2) 1)
    ∧ countInside [true, true, false, true] = 3
    ∧ piEstimate (countInside [true, true, false, true]) 4 = 3 := by
  have hcount : ∀ flags : List Bool, countInside flags = flags.count true := by
    intro flags
    rw [countInside, countInside_fold, Nat.zero_add]
  refine ⟨hcount, ⟨?_, ?_, ?_, ?_⟩, by decide, ?_⟩
  · rw [insideR, show (0 * 0 + 0 * 0 : ℝ) = 0 by norm_num, Real.sqrt_zero]
    norm_num
  · rw [insideR, show (1 * 1 + 0 * 0 : ℝ) = 1 by norm_num, Real.sqrt_one]
  · rw [insideR, show (2 * 2 + 0 * 0 : ℝ) = 2 ^ 2 by norm_num,
      Real.sqrt_sq (by norm_num : (0 : ℝ) ≤ 2)]
    norm_num
  · rw [insideR]
    calc Real.sqrt (1 / 2 * (1 / 2) + 1 / 2 * (1 / 2)) ≤ Real.sqrt 1 :=
          Real.sqrt_le_sqrt (by norm_num)
      _ = 1 := Real.sqrt_one
  · rw [show countInside [true, true, false, true] = 3 by decide, piEstimate]
    norm_num

/-- Claim C8: for the degenerate size `0` the aggregation returns count `0`;
the estimator of the program never divides by zero because the problem size
fixed at configuration time (computePi.cpp line 154) is `10000 ≠ 0`, so the
instance `n = 0` cannot arise in the program. -/
theorem degenerate_zero_and_config :
    countInside [] = 0 ∧ nPoints = 10000 ∧ (nPoints : ℚ) ≠ 0 := by
  refine ⟨rfl, rfl, by norm_num [nPoints]⟩

/-- Claim C10: `processPoint` writes exactly `points.inside[idx]`, computed
from `points.x[idx]` and `points.y[idx]`, and never modifies the `x` and `y`
buffers; consequently a whole kernel launch leaves `x` and `y` unchanged and
leaves every entry of `inside` at an index not assigned to the worker
unchanged. -/
theorem kernel_frame (r : ℚ) (s : Points) (idx : ℕ) (idxs : List ℕ) :
    (processPoint r s idx).x = s.x
    ∧ (processPoint r s idx).y = s.y
    ∧ (processPoint r s idx).inside idx = pointInside (s.x idx) (s.y idx) r
    ∧ (∀ j, j ≠ idx → (processPoint r s idx).inside j = s.inside j)
    ∧ (runKernelOn r s idxs).x = s.x
    ∧ (runKernelOn r s idxs).y = s.y
    ∧ (∀ j, j ∉ idxs → (runKernelOn r s idxs).inside j = s.inside j) := by
  have main : ∀ (l : List ℕ) (p : Points),
      (runKernelOn r p l).x = p.x ∧ (runKernelOn r p l).y = p.y
      ∧ ∀ j, j ∉ l → (runKernelOn r p l).inside j = p.inside j := by
    intro l
    induction l with
    | nil => intro p; exact ⟨rfl, rfl, fun j _ => rfl⟩
    | cons a l ih =>
      intro p
      have h := ih (processPoint r p a)
      refine ⟨h.1, h.2.1, fun j hj => ?_⟩
      have hj1 : j ≠ a := fun hja => hj (hja ▸ List.mem_cons_self a l)
      have hj2 : j ∉ l := fun hjl => hj (List.mem_cons_of_mem a hjl)
      calc (runKernelOn r p (a :: l)).inside j
          = (processPoint r p a).inside j := h.2.2 j hj2
        _ = p.inside j := if_neg hj1
  refine ⟨rfl, rfl, if_pos rfl, fun j hj => if_neg hj, (main idxs s).1, (main idxs s).2.1,
    (main idxs s).2.2⟩

/- ## 32-bit semantics and termination of the loops -/

/-- The strided loop with the source's `uint32_t` increment semantics: the
step `idx += gridThreadExtent` is taken modulo `2 ^ 32`, and a fuel
parameter counts the outer iterations still allowed. -/
def stridedLoop32 (T n : ℕ) : ℕ → ℕ → List ℕ
  | 0, _ => []
  | fuel + 1, i => if i < n then i :: stridedLoop32 T n fuel ((i + T) % W32) else []

/-- The inner blocked loop with `uint32_t` semantics for `idx + k` and
`i + 1`, and a fuel parameter. -/
def blockedInner32 (k n idx : ℕ) : ℕ → ℕ → List ℕ
  | 0, _ => []
  | fuel + 1, i =>
    if i < (idx + k) % W32 ∧ i < n then i :: blockedInner32 k n idx fuel ((i + 1) % W32)
    else []

/-- The outer strided-blocked loop with `uint32_t` semantics for the step
`idx += gridThreadExtent * threadElementExtent`, giving the inner loop fuel
`k` (it runs at most `k` iterations), and a fuel parameter counting outer
iterations. -/
def stridedBlockedLoop32 (T k n : ℕ) : ℕ → ℕ → List ℕ
  | 0, _ => []
  | fuel + 1, idx =>
    if idx < n then
      blockedInner32 k n idx k idx ++ stridedBlockedLoop32 T k n fuel ((idx + T * k) % W32)
    else []

/-- With fuel `⌈(n - i) / T⌉` and no 32-bit wrap-around
(`n + T ≤ 2 ^ 32`), the fueled 32-bit strided loop terminates and computes
exactly the ideal strided loop. -/
theorem stridedLoop32_eq (T n : ℕ) (hT : 0 < T) (hW : n + T ≤ W32) :
    ∀ fuel i, (n - i + (T - 1)) / T ≤ fuel → stridedLoop32 T n fuel i = stridedLoop T n i := by
  intro fuel
  induction fuel with
  | zero =>
    intro i hf
    have hi : ¬ i < n := by
      intro hin
      have h1 : 1 ≤ (n - i + (T - 1)) / T :=
        (Nat.le_div_iff_mul_le hT).mpr (by omega)
      omega
    rw [show stridedLoop32 T n 0 i = [] from rfl, stridedLoop,
      dif_neg (fun hc : 0 < T ∧ i < n => hi hc.2)]
  | succ fuel ih =>
    intro i hf
    by_cases hin : i < n
    · have hmod : (i + T) % W32 = i + T := Nat.mod_eq_of_lt (by omega)
      have hstep : (n - i + (T - 1)) / T = (n - (i + T) + (T - 1)) / T + 1 := by
        have hc := ceil_div_step T (n - i) hT (by omega)
        rwa [show n - i - T = n - (i + T) by omega] at hc
      rw [show stridedLoop32 T n (fuel + 1) i
          = if i < n then i :: stridedLoop32 T n fuel ((i + T) % W32) else [] from rfl,
        if_pos hin, hmod, ih (i + T) (by omega)]
      conv_rhs => rw [stridedLoop, dif_pos ⟨hT, hin⟩]
    · rw [show stridedLoop32 T n (fuel + 1) i
          = if i < n then i :: stridedLoop32 T n fuel ((i + T) % W32) else [] from rfl,
        if_neg hin, stridedLoop, dif_neg (fun hc : 0 < T ∧ i < n => hin hc.2)]

/-- With fuel `k` and no 32-bit wrap-around, the fueled 32-bit inner blocked
loop terminates and computes exactly the ideal inner loop. -/
theorem blockedInner32_eq (k n idx : ℕ) (hW : idx + k < W32) (hnW : n < W32) :
    ∀ fuel i, idx + k ≤ i + fuel → blockedInner32 k n idx fuel i = blockedInner k n idx i := by
  have hg : (idx + k) % W32 = idx + k := Nat.mod_eq_of_lt hW
  intro fuel
  induction fuel with
  | zero =>
    intro i hf
    rw [show blockedInner32 k n idx 0 i = [] from rfl, blockedInner,
      dif_neg (show ¬ (i < idx + k ∧ i < n) by omega)]
  | succ fuel ih =>
    intro i hf
    by_cases hc : i < idx + k ∧ i < n
    · have h1 : (i + 1) % W32 = i + 1 := Nat.mod_eq_of_lt (by omega)
      rw [show blockedInner32 k n idx (fuel + 1) i
          = if i < (idx + k) % W32 ∧ i < n then
              i :: blockedInner32 k n idx fuel ((i + 1) % W32) else [] from rfl,
        hg, if_pos hc, h1, ih (i + 1) (by omega)]
      conv_rhs => rw [blockedInner, dif_pos hc]
    · rw [show blockedInner32 k n idx (fuel + 1) i
          = if i < (idx + k) % W32 ∧ i < n then
              i :: blockedInner32 k n idx fuel ((i + 1) % W32) else [] from rfl,
        hg, if_neg hc, blockedInner, dif_neg hc]

/-- With fuel `⌈(n - b) / (T·k)⌉` and no 32-bit wrap-around
(`n + T·k ≤ 2 ^ 32`), the fueled 32-bit strided-blocked loop terminates and
computes exactly the ideal strided-blocked loop. -/
theorem stridedBlockedLoop32_eq (T k n : ℕ) (hT : 0 < T) (hk : 0 < k)
    (hW : n + T * k ≤ W32) :
    ∀ fuel b, (n - b + (T * k - 1)) / (T * k) ≤ fuel →
      stridedBlockedLoop32 T k n fuel b = stridedBlockedLoop T k n b := by
  have hS : 0 < T * k := Nat.mul_pos hT hk
  have hkS : k ≤ T * k := Nat.le_mul_of_pos_left k hT
  intro fuel
  induction fuel with
  | zero =>
    intro b hf
    have hb : ¬ b < n := by
      intro hbn
      have h1 : 1 ≤ (n - b + (T * k - 1)) / (T * k) :=
        (Nat.le_div_iff_mul_le hS).mpr (by omega)
      omega
    rw [show stridedBlockedLoop32 T k n 0 b = [] from rfl, stridedBlockedLoop,
      dif_neg (fun hc : 0 < T ∧ 0 < k ∧ b < n => hb hc.2.2)]
  | succ fuel ih =>
    intro b hf
    by_cases hbn : b < n
    · have hinner : blockedInner32 k n b k b = blockedInner k n b b :=
        blockedInner32_eq k n b (by omega) (by omega) k b (by omega)
      have hmod : (b + T * k) % W32 = b + T * k := Nat.mod_eq_of_lt (by omega)
      have hstep : (n - b + (T * k - 1)) / (T * k)
          = (n - (b + T * k) + (T * k - 1)) / (T * k) + 1 := by
        have hc := ceil_div_step (T * k) (n - b) hS (by omega)
        rwa [show n - b - T * k = n - (b + T * k) by omega] at hc
      rw [show stridedBlockedLoop32 T k n (fuel + 1) b
          = if b < n then
              blockedInner32 k n b k b ++ stridedBlockedLoop32 T k n fuel ((b + T * k) % W32)
            else [] from rfl,
        if_pos hbn, hinner, hmod, ih (b + T * k) (by omega)]
      conv_rhs => rw [stridedBlockedLoop, dif_pos ⟨hT, hk, hbn⟩]
    · rw [show stridedBlockedLoop32 T k n (fuel + 1) b
          = if b < n then
              blockedInner32 k n b k b ++ stridedBlockedLoop32 T k n fuel ((b + T * k) % W32)
            else [] from rfl,
        if_neg hbn, stridedBlockedLoop, dif_neg (fun hc : 0 < T ∧ 0 < k ∧ b < n => hbn hc.2.2)]

/-- Claim C9: for every worker, the per-worker loops of the Strided and
StridedBlocked kernels terminate after finitely many iterations, provided
the total worker count is `≥ 1` and the 32-bit additions do not wrap around
while the loop runs (`n + stride ≤ 2 ^ 32`): the `uint32_t` loop with fuel
`⌈n / stride⌉` (so at most that many outer positions) already computes the
complete ideal index list, whose length is at most `⌈n / T⌉` for Strided;
for StridedBlocked, the outer-position list of its closed form has at most
`⌈n / (T·k)⌉` entries. -/
theorem strided_loops_terminate (i T k n : ℕ) (hT : 0 < T) (hk : 0 < k)
    (hw1 : n + T ≤ W32) (hw2 : n + T * k ≤ W32) :
    stridedLoop32 T n ((n + (T - 1)) / T) i = PixelFinderKernelMultiplePointsPerThread i T n
    ∧ (PixelFinderKernelMultiplePointsPerThread i T n).length ≤ (n + (T - 1)) / T
    ∧ stridedBlockedLoop32 T k n ((n + (T * k - 1)) / (T * k)) (i * k)
        = PixelFinderKernelMultiplePointsPerThreadElements i T k n
    ∧ ((List.range ((n - i * k + (T * k - 1)) / (T * k))).map
        (fun j => i * k + j * (T * k))).length ≤ (n + (T * k - 1)) / (T * k) := by
  refine ⟨?_, ?_, ?_, ?_⟩
  · exact stridedLoop32_eq T n hT hw1 ((n + (T - 1)) / T) i
      (Nat.div_le_div_right (by omega))
  · rw [show PixelFinderKernelMultiplePointsPerThread i T n = stridedLoop T n i from rfl,
      stridedLoop_eq_map T n hT i, List.length_map, List.length_range]
    exact Nat.div_le_div_right (by omega)
  · exact stridedBlockedLoop32_eq T k n hT hk hw2 ((n + (T * k - 1)) / (T * k)) (i * k)
      (Nat.div_le_div_right (by omega))
  · rw [List.length_map, List.length_range]
    exact Nat.div_le_div_right (by omega)

/-- Witness for C9 at `i = 1`, `T = 3`, `k = 2`, `n = 10`. -/
theorem strided_loops_terminate_witness :
    (0 < 3 ∧ 0 < 2 ∧ 10 + 3 ≤ W32 ∧ 10 + 3 * 2 ≤ W32)
    ∧ (stridedLoop32 3 10 ((10 + (3 - 1)) / 3) 1 = PixelFinderKernelMultiplePointsPerThread 1 3 10
      ∧ (PixelFinderKernelMultiplePointsPerThread 1 3 10).length ≤ (10 + (3 - 1)) / 3
      ∧ stridedBlockedLoop32 3 2 10 ((10 + (3 * 2 - 1)) / (3 * 2)) (1 * 2)
          = PixelFinderKernelMultiplePointsPerThreadElements 1 3 2 10
      ∧ ((List.range ((10 - 1 * 2 + (3 * 2 - 1)) / (3 * 2))).map
          (fun j => 1 * 2 + j * (3 * 2))).length ≤ (10 + (3 * 2 - 1)) / (3 * 2)) :=
  ⟨⟨by decide, by decide, by norm_num [W32], by norm_num [W32]⟩,
    strided_loops_terminate 1 3 2 10 (by decide) (by decide) (by norm_num [W32])
      (by norm_num [W32])⟩

/- ## The uint32 kernels: claims under wrap-around -/

/-- `PixelFinderKernelMultiplePointsPerThread` with the source's `uint32_t`
semantics: the strided loop `stridedLoop32` from the worker's grid-thread
index, with `fuel` outer iterations allowed. -/
def PixelFinderKernelMultiplePointsPerThread32 (gridThreadIdx gridThreadExtent n fuel : ℕ) :
    List ℕ :=
  stridedLoop32 gridThreadExtent n fuel gridThreadIdx

/-- `PixelFinderKernelMultiplePointsPerThreadElements` with the source's
`uint32_t` semantics: the strided-blocked loop `stridedBlockedLoop32` from
the base `gridThreadIdx * threadElementExtent` computed modulo `2 ^ 32`,
with `fuel` outer iterations allowed. -/
def PixelFinderKernelMultiplePointsPerThreadElements32
    (gridThreadIdx gridThreadExtent threadElementExtent n fuel : ℕ) : List ℕ :=
  stridedBlockedLoop32 gridThreadExtent threadElementExtent n fuel
    ((gridThreadIdx * threadElementExtent) % W32)

/-- Pointwise-equal per-worker assignments concatenate to the same grid
assignment. -/
theorem allWorkers_congr (f g : ℕ → List ℕ) :
    ∀ W, (∀ j, j < W → f j = g j) → allWorkers f W = allWorkers g W := by
  intro W
  induction W with
  | zero => intro _; rfl
  | succ W ih =>
    intro h
    rw [allWorkers, allWorkers, ih (fun j hj => h j (by omega)), h W (by omega)]

/-- Every index the `uint32_t` strided loop processes is `< n`, for any
fuel: the guard `idx < n` is checked before each call, wrap-around or not. -/
theorem stridedLoop32_mem_lt (T n : ℕ) :
    ∀ fuel i, ∀ m ∈ stridedLoop32 T n fuel i, m < n := by
  intro fuel
  induction fuel with
  | zero => intro i m hm; exact absurd hm (List.not_mem_nil m)
  | succ fuel ih =>
    intro i m hm
    rw [show stridedLoop32 T n (fuel + 1) i
        = if i < n then i :: stridedLoop32 T n fuel ((i + T) % W32) else [] from rfl] at hm
    by_cases hin : i < n
    · rw [if_pos hin] at hm
      rcases List.mem_cons.mp hm with rfl | hm
      · exact hin
      · exact ih _ m hm
    · rw [if_neg hin] at hm
      exact absurd hm (List.not_mem_nil m)

/-- Every index the `uint32_t` inner blocked loop processes is `< n`, for
any fuel: the guard `i < n` is checked before each call. -/
theorem blockedInner32_mem_lt (k n idx : ℕ) :
    ∀ fuel i, ∀ m ∈ blockedInner32 k n idx fuel i, m < n := by
  intro fuel
  induction fuel with
  | zero => intro i m hm; exact absurd hm (List.not_mem_nil m)
  | succ fuel ih =>
    intro i m hm
    rw [show blockedInner32 k n idx (fuel + 1) i
        = if i < (idx + k) % W32 ∧ i < n then
            i :: blockedInner32 k n idx fuel ((i + 1) % W32) else [] from rfl] at hm
    by_cases hc : i < (idx + k) % W32 ∧ i < n
    · rw [if_pos hc] at hm
      rcases List.mem_cons.mp hm with rfl | hm
      · exact hc.2
      · exact ih _ m hm
    · rw [if_neg hc] at hm
      exact absurd hm (List.not_mem_nil m)

/-- Every index the `uint32_t` strided-blocked loop processes is `< n`, for
any fuel. -/
theorem stridedBlockedLoop32_mem_lt (T k n : ℕ) :
    ∀ fuel b, ∀ m ∈ stridedBlockedLoop32 T k n fuel b, m < n := by
  intro fuel
  induction fuel with
  | zero => intro b m hm; exact absurd hm (List.not_mem_nil m)
  | succ fuel ih =>
    intro b m hm
    rw [show stridedBlockedLoop32 T k n (fuel + 1) b
        = if b < n then
            blockedInner32 k n b k b ++ stridedBlockedLoop32 T k n fuel ((b + T * k) % W32)
          else [] from rfl] at hm
    by_cases hbn : b < n
    · rw [if_pos hbn] at hm
      rcases List.mem_append.mp hm with hm | hm
      · exact blockedInner32_mem_lt k n b k b m hm
      · exact ih _ m hm
    · rw [if_neg hbn] at hm
      exact absurd hm (List.not_mem_nil m)

/-- A `uint32_t` strided loop whose start index is already `≥ n` processes
nothing, for any fuel. -/
theorem stridedLoop32_skip (T n fuel i : ℕ) (h : n ≤ i) : stridedLoop32 T n fuel i = [] := by
  cases fuel with
  | zero => rfl
  | succ fuel =>
    rw [show stridedLoop32 T n (fuel + 1) i
        = if i < n then i :: stridedLoop32 T n fuel ((i + T) % W32) else [] from rfl,
      if_neg (by omega)]

/-- A `uint32_t` strided-blocked loop whose base is already `≥ n` processes
nothing, for any fuel. -/
theorem stridedBlockedLoop32_skip (T k n fuel b : ℕ) (h : n ≤ b) :
    stridedBlockedLoop32 T k n fuel b = [] := by
  cases fuel with
  | zero => rfl
  | succ fuel =>
    rw [show stridedBlockedLoop32 T k n (fuel + 1) b
        = if b < n then
            blockedInner32 k n b k b ++ stridedBlockedLoop32 T k n fuel ((b + T * k) % W32)
          else [] from rfl,
      if_neg (by omega)]

/-- For `k = 1` the `uint32_t` strided-blocked loop equals the `uint32_t`
strided loop at every fuel: the inner loop contributes exactly the outer
position (its `i + 1` never wraps while `i < n < 2 ^ 32`), and the outer
step `T * 1 = T` coincides. -/
theorem stridedBlockedLoop32_one (T n : ℕ) (hn : n < W32) :
    ∀ fuel idx, stridedBlockedLoop32 T 1 n fuel idx = stridedLoop32 T n fuel idx := by
  intro fuel
  induction fuel with
  | zero => intro idx; rfl
  | succ fuel ih =>
    intro idx
    by_cases hidx : idx < n
    · have hmod : (idx + 1) % W32 = idx + 1 := Nat.mod_eq_of_lt (by omega)
      rw [show stridedBlockedLoop32 T 1 n (fuel + 1) idx
          = if idx < n then
              blockedInner32 1 n idx 1 idx ++ stridedBlockedLoop32 T 1 n fuel ((idx + T * 1) % W32)
            else [] from rfl,
        if_pos hidx,
        show blockedInner32 1 n idx 1 idx
          = if idx < (idx + 1) % W32 ∧ idx < n then
              idx :: blockedInner32 1 n idx 0 ((idx + 1) % W32) else [] from rfl,
        hmod, if_pos ⟨by omega, hidx⟩,
        show blockedInner32 1 n idx 0 (idx + 1) = [] from rfl,
        Nat.mul_one, ih ((idx + T) % W32),
        show stridedLoop32 T n (fuel + 1) idx
          = if idx < n then idx :: stridedLoop32 T n fuel ((idx + T) % W32) else [] from rfl,
        if_pos hidx]
      rfl
    · rw [show stridedBlockedLoop32 T 1 n (fuel + 1) idx
          = if idx < n then
              blockedInner32 1 n idx 1 idx ++ stridedBlockedLoop32 T 1 n fuel ((idx + T * 1) % W32)
            else [] from rfl,
        if_neg hidx,
        show stridedLoop32 T n (fuel + 1) idx
          = if idx < n then idx :: stridedLoop32 T n fuel ((idx + T) % W32) else [] from rfl,
        if_neg hidx]

/-- Counterexample to claim C1 as stated: at problem size `n = 5` with the
valid hierarchy shape of total worker count `T = 2 ^ 32 - 1`, the `uint32_t`
Strided kernel's increment wraps: worker `1` visits `1` and then
`(1 + (2 ^ 32 - 1)) mod 2 ^ 32 = 0`, so flat index `0` is visited by both
worker `0` and worker `1` — not a partition.  (Fuel `3` covers the complete
runs: both end by failing the guard.) -/
theorem workDistribution_partition_counterexample :
    (0 < 4294967295 ∧ 1 < 4294967295)
    ∧ PixelFinderKernelMultiplePointsPerThread32 0 4294967295 5 3 = [0]
    ∧ PixelFinderKernelMultiplePointsPerThread32 1 4294967295 5 3 = [1, 0]
    ∧ (0 : ℕ) ∈ [0] ∧ (0 : ℕ) ∈ [1, 0] := by decide

/-- Claim C1 (amended): for every problem size `n` and every valid
hierarchy shape (`T ≥ 1` workers, `elementsPerThread = k ≥ 1`) satisfying
the no-wrap proviso `n + stride ≤ 2 ^ 32`, the index sets produced across
all `T` workers by the `uint32_t` Strided kernel
(`PixelFinderKernelMultiplePointsPerThread32`) and by the `uint32_t`
StridedBlocked kernel
(`PixelFinderKernelMultiplePointsPerThreadElements32`) — with any fuel
covering `⌈n / stride⌉` outer iterations, after which every loop has
reached its guard exit — each form a partition of `[0, n)`: every flat
index `m < n` is visited exactly once across all workers, and no index
`≥ n` is ever visited. -/
theorem uint32_workDistribution_partition (n T k m fuelS fuelB : ℕ) (hT : 0 < T) (hk : 0 < k)
    (hw1 : n + T ≤ W32) (hw2 : n + T * k ≤ W32)
    (hfS : (n + (T - 1)) / T ≤ fuelS) (hfB : (n + (T * k - 1)) / (T * k) ≤ fuelB) :
    (allWorkers (fun i => PixelFinderKernelMultiplePointsPerThread32 i T n fuelS) T).count m
      = (if m < n then 1 else 0)
    ∧ (allWorkers
        (fun i => PixelFinderKernelMultiplePointsPerThreadElements32 i T k n fuelB) T).count m
      = (if m < n then 1 else 0) := by
  have hTk : T * k ≤ W32 := by omega
  have hbS : allWorkers (fun i => PixelFinderKernelMultiplePointsPerThread32 i T n fuelS) T
      = allWorkers (fun i => PixelFinderKernelMultiplePointsPerThread i T n) T :=
    allWorkers_congr _ _ T (fun j hj =>
      stridedLoop32_eq T n hT hw1 fuelS j (le_trans (Nat.div_le_div_right (by omega)) hfS))
  have hbB : allWorkers
        (fun i => PixelFinderKernelMultiplePointsPerThreadElements32 i T k n fuelB) T
      = allWorkers (fun i => PixelFinderKernelMultiplePointsPerThreadElements i T k n) T :=
    allWorkers_congr _ _ T (fun j hj => by
      have hjk : j * k < W32 := lt_of_lt_of_le ((Nat.mul_lt_mul_right hk).mpr hj) hTk
      show stridedBlockedLoop32 T k n fuelB ((j * k) % W32) = stridedBlockedLoop T k n (j * k)
      rw [Nat.mod_eq_of_lt hjk]
      exact stridedBlockedLoop32_eq T k n hT hk hw2 fuelB (j * k)
        (le_trans (Nat.div_le_div_right (by omega)) hfB))
  rw [hbS, hbB]
  exact workDistribution_partition n T k m hT hk

/-- Witness for C1 at `n = 7`, `T = 3`, `k = 2`, `m = 5`, fuels `3` and `2`. -/
theorem uint32_workDistribution_partition_witness :
    (0 < 3 ∧ 0 < 2 ∧ 7 + 3 ≤ W32 ∧ 7 + 3 * 2 ≤ W32
      ∧ (7 + (3 - 1)) / 3 ≤ 3 ∧ (7 + (3 * 2 - 1)) / (3 * 2) ≤ 2)
    ∧ ((allWorkers (fun i => PixelFinderKernelMultiplePointsPerThread32 i 3 7 3) 3).count 5
        = (if 5 < 7 then 1 else 0)
      ∧ (allWorkers
          (fun i => PixelFinderKernelMultiplePointsPerThreadElements32 i 3 2 7 2) 3).count 5
        = (if 5 < 7 then 1 else 0)) :=
  ⟨⟨by decide, by decide, by decide, by decide, by decide, by decide⟩,
    uint32_workDistribution_partition 7 3 2 5 3 2 (by decide) (by decide) (by decide)
      (by decide) (by decide) (by decide)⟩

/-- Counterexample to claim C2 as stated: worker `1` of the Exact variant
(`PixelFinderKernelOnePointPerThreadSimplified`) with `n = 1`, `T = 2`
invokes the classifier at flat index `1 ≥ n` (the kernel has no bound
check); and under `uint32_t` wrap the skip clause fails too: at `n = 10`,
`T = 2 ^ 31`, `k = 4`, worker `2 ^ 30` has no in-range index of its own
(`i · k = 2 ^ 32 ≥ n`), yet its wrapped base `(2 ^ 30 · 4) mod 2 ^ 32 = 0`
and zero step make it process the wrapped-around indices `0 … 3` over and
over instead of skipping. -/
theorem exact_out_of_range_counterexample :
    (1 < 2 ∧ 1 ∈ PixelFinderKernelOnePointPerThreadSimplified 1 ∧ ¬ (1 < 1))
    ∧ 10 ≤ 1073741824 * 4
    ∧ PixelFinderKernelMultiplePointsPerThreadElements32 1073741824 2147483648 4 10 2
      = [0, 1, 2, 3, 0, 1, 2, 3] := by decide

/-- Claim C2 (amended): the `uint32_t` Bounded, Strided and StridedBlocked
kernels never invoke the classifier (`processPoint`) at a flat index `≥ n`,
for every problem size, worker, hierarchy shape and fuel (i.e. along any
prefix of the loop's run, terminating or not) — the loop guards check
`< n` before every call, wrap-around or not.  A Strided worker whose own
index is `≥ n` processes nothing, for any shape; a StridedBlocked worker
whose base `i·k` is `≥ n` processes nothing provided the no-wrap proviso
`n + T·k ≤ 2 ^ 32` holds (under wrap it may instead process wrapped-around
indices, see the counterexample).  The Exact variant stays in range only
under its documented precondition `T = n`. -/
theorem uint32_no_out_of_range_classifier_call (n T k i fuel : ℕ) :
    (∀ m ∈ PixelFinderKernelOnePointPerThread i n, m < n)
    ∧ (∀ m ∈ PixelFinderKernelMultiplePointsPerThread32 i T n fuel, m < n)
    ∧ (∀ m ∈ PixelFinderKernelMultiplePointsPerThreadElements32 i T k n fuel, m < n)
    ∧ (n ≤ i → PixelFinderKernelMultiplePointsPerThread32 i T n fuel = [])
    ∧ (0 < T → 0 < k → i < T → n + T * k ≤ W32 → n ≤ i * k →
        PixelFinderKernelMultiplePointsPerThreadElements32 i T k n fuel = [])
    ∧ (n = T → i < T → ∀ m ∈ PixelFinderKernelOnePointPerThreadSimplified i, m < n) := by
  refine ⟨(no_out_of_range_classifier_call n T k i).1, stridedLoop32_mem_lt T n fuel i,
    stridedBlockedLoop32_mem_lt T k n fuel ((i * k) % W32),
    stridedLoop32_skip T n fuel i, ?_, (no_out_of_range_classifier_call n T k i).2.2.2⟩
  intro hT hk hi hw hik
  show stridedBlockedLoop32 T k n fuel ((i * k) % W32) = []
  have hikW : (i * k) % W32 = i * k :=
    Nat.mod_eq_of_lt (lt_of_lt_of_le ((Nat.mul_lt_mul_right hk).mpr hi) (by omega))
  rw [hikW]
  exact stridedBlockedLoop32_skip T k n fuel (i * k) hik

/-- Counterexample to claim C3 as stated: at `n = 5`, `T = 2 ^ 32 - 1` the
`uint32_t` Strided kernel's increment wraps and worker `1` visits `[1, 0]`
(fuel `3` covers the complete run): the sequence is not increasing and does
not stop at the first value `≥ n`. -/
theorem strided_sequence_counterexample :
    (0 < 4294967295)
    ∧ PixelFinderKernelMultiplePointsPerThread32 1 4294967295 5 3 = [1, 0]
    ∧ ¬ ([1, 0] : List ℕ).Pairwise (· < ·) := by decide

/-- Claim C3 (amended): under the `uint32_t` Strided kernel
(`PixelFinderKernelMultiplePointsPerThread32`), for every problem size `n`
and total worker count `T ≥ 1` satisfying the no-wrap proviso
`n + T ≤ 2 ^ 32`, and any fuel covering `⌈n / T⌉` outer iterations (after
which the loop has reached its guard exit), the worker with linear
grid-thread index `i` processes exactly the sequence `i, i + T, i + 2T, …`
in strictly increasing order for exactly `⌈(n - i) / T⌉` steps, i.e. it
stops at the first value `≥ n`; no relation between `n` and `T` beyond the
proviso is assumed (`n` smaller, equal to, or larger than `T`). -/
theorem uint32_strided_per_worker_sequence (i T n fuel : ℕ) (hT : 0 < T)
    (hw : n + T ≤ W32) (hf : (n + (T - 1)) / T ≤ fuel) :
    PixelFinderKernelMultiplePointsPerThread32 i T n fuel
      = (List.range ((n - i + (T - 1)) / T)).map (fun j => i + j * T)
    ∧ (PixelFinderKernelMultiplePointsPerThread32 i T n fuel).Pairwise (· < ·)
    ∧ (∀ j : ℕ, j < (n - i + (T - 1)) / T ↔ i + j * T < n) := by
  have hb : PixelFinderKernelMultiplePointsPerThread32 i T n fuel
      = PixelFinderKernelMultiplePointsPerThread i T n :=
    stridedLoop32_eq T n hT hw fuel i (le_trans (Nat.div_le_div_right (by omega)) hf)
  obtain ⟨h1, h2, h3⟩ := strided_per_worker_sequence i T n hT
  refine ⟨hb.trans h1, ?_, h3⟩
  rw [hb]
  exact h2

/-- Witness for C3 at `i = 1`, `T = 3`, `n = 10`, fuel `4`: the worker
visits `[1, 4, 7]`. -/
theorem uint32_strided_per_worker_sequence_witness :
    (0 < 3 ∧ 10 + 3 ≤ W32 ∧ (10 + (3 - 1)) / 3 ≤ 4)
    ∧ (PixelFinderKernelMultiplePointsPerThread32 1 3 10 4
        = (List.range ((10 - 1 + (3 - 1)) / 3)).map (fun j => 1 + j * 3)
      ∧ (PixelFinderKernelMultiplePointsPerThread32 1 3 10 4).Pairwise (· < ·)
      ∧ (∀ j : ℕ, j < (10 - 1 + (3 - 1)) / 3 ↔ 1 + j * 3 < 10)) :=
  ⟨⟨by decide, by decide, by decide⟩,
    uint32_strided_per_worker_sequence 1 3 10 4 (by decide) (by decide) (by decide)⟩

/-- Counterexample to claim C4 as stated: at `n = 10`, `T = 2 ^ 31`,
`k = 4`, worker `2 ^ 30` of the `uint32_t` StridedBlocked kernel has base
`(2 ^ 30 · 4) mod 2 ^ 32 = 0` and outer step `(2 ^ 31 · 4) mod 2 ^ 32 = 0`:
it revisits `0 … 3` forever (shown at fuel `2`), while the claimed
contiguous-runs decomposition at these parameters is the empty list
(the wrap-free base `2 ^ 30 · 4 = 2 ^ 32` is `≥ n`). -/
theorem stridedBlocked_runs_counterexample :
    PixelFinderKernelMultiplePointsPerThreadElements32 1073741824 2147483648 4 10 2
      = [0, 1, 2, 3, 0, 1, 2, 3]
    ∧ ((List.range ((10 - 1073741824 * 4 + (2147483648 * 4 - 1)) / (2147483648 * 4))).map
        (fun j => 1073741824 * 4 + j * (2147483648 * 4))).flatMap
        (fun p => List.range' p (min (p + 4) 10 - p)) = []
    ∧ ([0, 1, 2, 3, 0, 1, 2, 3] : List ℕ) ≠ [] := by decide

/-- Claim C4 (amended): for every problem size `n`, `T ≥ 1` workers,
`k ≥ 1` and worker `i < T` satisfying the no-wrap proviso
`n + T·k ≤ 2 ^ 32`, with any fuel covering `⌈n / (T·k)⌉` outer iterations
(after which the loop has reached its guard exit), the `uint32_t`
StridedBlocked kernel (`PixelFinderKernelMultiplePointsPerThreadElements32`)
visits its indices in contiguous runs of length `k` (each run
`List.range' p …` starting at an outer position `p`, truncated at `n`); and
for `k = 1` its per-worker index sequence is identical to the `uint32_t`
Strided kernel's (`PixelFinderKernelMultiplePointsPerThread32`) at every
fuel. -/
theorem uint32_stridedBlocked_runs_and_k1 (i T k n fuel : ℕ) (hT : 0 < T) (hk : 0 < k)
    (hi : i < T) (hw : n + T * k ≤ W32) (hf : (n + (T * k - 1)) / (T * k) ≤ fuel) :
    PixelFinderKernelMultiplePointsPerThreadElements32 i T k n fuel
      = ((List.range ((n - i * k + (T * k - 1)) / (T * k))).map
          (fun j => i * k + j * (T * k))).flatMap
          (fun p => List.range' p (min (p + k) n - p))
    ∧ PixelFinderKernelMultiplePointsPerThreadElements32 i T 1 n fuel
      = PixelFinderKernelMultiplePointsPerThread32 i T n fuel := by
  have hS : 0 < T * k := Nat.mul_pos hT hk
  have hTk : T * k ≤ W32 := by omega
  have hik : i * k < W32 := lt_of_lt_of_le ((Nat.mul_lt_mul_right hk).mpr hi) hTk
  constructor
  · show stridedBlockedLoop32 T k n fuel ((i * k) % W32) = _
    rw [Nat.mod_eq_of_lt hik,
      stridedBlockedLoop32_eq T k n hT hk hw fuel (i * k)
        (le_trans (Nat.div_le_div_right (by omega)) hf)]
    exact stridedBlockedLoop_eq_runs T k n hT hk (i * k)
  · show stridedBlockedLoop32 T 1 n fuel ((i * 1) % W32) = stridedLoop32 T n fuel i
    have hTW : T ≤ T * k := Nat.le_mul_of_pos_right T hk
    have hiW : i < W32 := by omega
    rw [Nat.mul_one, Nat.mod_eq_of_lt hiW]
    exact stridedBlockedLoop32_one T n (by omega) fuel i

/-- Witness for C4 at `i = 1`, `T = 2`, `k = 3`, `n = 10`, fuel `3`. -/
theorem uint32_stridedBlocked_runs_and_k1_witness :
    (0 < 2 ∧ 0 < 3 ∧ 1 < 2 ∧ 10 + 2 * 3 ≤ W32 ∧ (10 + (2 * 3 - 1)) / (2 * 3) ≤ 3)
    ∧ (PixelFinderKernelMultiplePointsPerThreadElements32 1 2 3 10 3
        = ((List.range ((10 - 1 * 3 + (2 * 3 - 1)) / (2 * 3))).map
            (fun j => 1 * 3 + j * (2 * 3))).flatMap
            (fun p => List.range' p (min (p + 3) 10 - p))
      ∧ PixelFinderKernelMultiplePointsPerThreadElements32 1 2 1 10 3
        = PixelFinderKernelMultiplePointsPerThread32 1 2 10 3) :=
  ⟨⟨by decide, by decide, by decide, by decide, by decide⟩,
    uint32_stridedBlocked_runs_and_k1 1 2 3 10 3 (by decide) (by decide) (by decide)
      (by decide) (by decide)⟩

/-- Counterexample to claim C5 as stated: at `n = T = 2 ^ 32 - 1` the
`uint32_t` Strided kernel's step is `≡ -1 (mod 2 ^ 32)`, so worker `1`
visits `[1, 0]` (fuel `3` covers the complete run), not exactly its own
index `[1]`. -/
theorem equal_worker_count_counterexample :
    (1 < 4294967295)
    ∧ PixelFinderKernelMultiplePointsPerThread32 1 4294967295 4294967295 3 = [1, 0]
    ∧ ([1, 0] : List ℕ) ≠ [1] := by decide

/-- Claim C5 (amended): whenever the problem size `n` equals the total
worker count `T` and the no-wrap proviso `n + T ≤ 2 ^ 32` holds, the Exact
(`PixelFinderKernelOnePointPerThreadSimplified`), Bounded
(`PixelFinderKernelOnePointPerThread`) and `uint32_t` Strided
(`PixelFinderKernelMultiplePointsPerThread32`, with any fuel covering
`⌈n / T⌉` outer iterations, after which every worker's loop has reached its
guard exit) policies each make worker `i < T` visit exactly its own linear
index `[i]`, so all three produce identical per-worker index sets and
across the grid visit every index of `[0, n)` exactly once. -/
theorem uint32_equal_worker_count_equivalence (n T i fuel : ℕ) (hn : n = T) (hi : i < T)
    (hw : n + T ≤ W32) (hf : (n + (T - 1)) / T ≤ fuel) :
    PixelFinderKernelOnePointPerThreadSimplified i = [i]
    ∧ PixelFinderKernelOnePointPerThread i n = [i]
    ∧ PixelFinderKernelMultiplePointsPerThread32 i T n fuel = [i]
    ∧ allWorkers (fun j => PixelFinderKernelOnePointPerThreadSimplified j) T = List.range n
    ∧ allWorkers (fun j => PixelFinderKernelOnePointPerThread j n) T = List.range n
    ∧ allWorkers (fun j => PixelFinderKernelMultiplePointsPerThread32 j T n fuel) T
      = List.range n := by
  obtain ⟨h1, h2, h3, h4, h5, h6⟩ := equal_worker_count_equivalence n T i hn hi
  have hT : 0 < T := by omega
  have hb : ∀ j, j < T → PixelFinderKernelMultiplePointsPerThread32 j T n fuel
      = PixelFinderKernelMultiplePointsPerThread j T n := fun j hj =>
    stridedLoop32_eq T n hT hw fuel j (le_trans (Nat.div_le_div_right (by omega)) hf)
  refine ⟨h1, h2, ?_, h4, h5, ?_⟩
  · rw [hb i hi]
    exact h3
  · rw [allWorkers_congr _ _ T hb]
    exact h6

/-- Witness for C5 at `n = T = 4`, `i = 2`, fuel `1`. -/
theorem uint32_equal_worker_count_equivalence_witness :
    ((4 : ℕ) = 4 ∧ 2 < 4 ∧ 4 + 4 ≤ W32 ∧ (4 + (4 - 1)) / 4 ≤ 1)
    ∧ (PixelFinderKernelOnePointPerThreadSimplified 2 = [2]
      ∧ PixelFinderKernelOnePointPerThread 2 4 = [2]
      ∧ PixelFinderKernelMultiplePointsPerThread32 2 4 4 1 = [2]
      ∧ allWorkers (fun j => PixelFinderKernelOnePointPerThreadSimplified j) 4 = List.range 4
      ∧ allWorkers (fun j => PixelFinderKernelOnePointPerThread j 4) 4 = List.range 4
      ∧ allWorkers (fun j => PixelFinderKernelMultiplePointsPerThread32 j 4 4 1) 4
        = List.range 4) :=
  ⟨⟨rfl, by decide, by decide, by decide⟩,
    uint32_equal_worker_count_equivalence 4 4 2 1 rfl (by decide) (by decide) (by decide)⟩
